import Mathlib

/-!
Verification of the asynchronous batch-migration engine in
`backend/routes/collections.py`.

The shallow embedding below models:
* the association store as a list of `(company_id, collection_id)` pairs
  (`DB`), in insertion order, with SQLAlchemy queries translated to list
  filters, slices, membership tests, appends and first-match deletions;
* `copy_companies_background` and `move_companies_background` as pure
  functions (`copyBackground`, `moveBackground`); the page loops are
  written with an explicit fuel argument which is instantiated with a
  value (the total unit count for copy, the id-list length for move)
  that is provably at least the number of loop iterations, because each
  non-breaking iteration advances `processed` by at least one unit
  (copy) or consumes at least one id (move);
* the possibility that a page's `bulk_save_objects`/`commit` raises
  `IntegrityError` as a per-page oracle `fails : Nat → Bool`; the
  `except IntegrityError: rollback` handler corresponds to keeping the
  database unchanged for that page's batch insert;
* the progress registry entry for one operation as the final stored
  value plus the list of intermediate per-page writes (`trace`), and
  the retention/eviction behaviour of the `finally` block as a function
  of elapsed time since the terminal state;
* `get_operation_progress` including its 404 branch and the derived
  status label.

The per-page liked-status queries in the Python code run inside the same
session with autoflush, so they observe the page's earlier uncommitted
mutations; the model therefore threads the database through each step of
a page in program order.  The final per-page `commit` in the source can
only fail on a uniqueness violation, which the page's own existence
checks rule out in a single-operation execution, so it is modelled as
always succeeding; the batch insert keeps its failure oracle.
-/

/-- An association row: `(company_id, collection_id)`. -/
abbrev Assoc := Nat × Nat

/-- The association store, in insertion order. -/
abbrev DB := List Assoc

/-- Existence check for one association, as in the per-company
`db.query(...).filter(collection_id).filter(company_id).first()` probes. -/
def hasAssoc (db : DB) (c coll : Nat) : Bool :=
  decide ((c, coll) ∈ db)

/-- All associations of one collection, in store order: the
`filter(CompanyCollectionAssociation.collection_id == coll)` query. -/
def assocsIn (db : DB) (coll : Nat) : DB :=
  db.filter (fun a => decide (a.2 = coll))

/-- Delete the first stored row equal to `p`, as `db.delete` applied to the
row returned by a `.first()` query; a no-op when no such row exists. -/
def removeFirst : DB → Assoc → DB
  | [], _ => []
  | a :: rest, p => if a = p then rest else a :: removeFirst rest p

/-- Number of copies of a row in the store. -/
def cnt : DB → Assoc → Nat
  | [], _ => 0
  | a :: rest, p => (if a = p then 1 else 0) + cnt rest p

/-- Resolve the distinguished liked collection by its well-known name
(`collection_name == "Liked Companies List"`, first match). -/
def resolveLiked (cs : List (Nat × String)) : Option Nat :=
  (cs.find? (fun col => col.2 == "Liked Companies List")).map (fun col => col.1)

/-- One step of the liked-invariant branch for a target equal to the liked
collection: insert `(c, l)` unless it is already present. -/
def insertLiked (l : Nat) (d : DB) (c : Nat) : DB :=
  if hasAssoc d c l then d else d ++ [(c, l)]

/-- The page size hard-coded in both background tasks. -/
def batchSize : Nat := 200

/-- Percentage written to the registry: `(processed / total) * 100`. -/
def progressOf (processed total : Nat) : ℚ :=
  ((processed : ℚ) / (total : ℚ)) * 100

/-- Status label derived by `get_operation_progress` from a stored percent. -/
def statusOf (p : ℚ) : String :=
  if p = 100 then "completed" else if p = -1 then "error" else "in_progress"

/-- Result of querying one operation id in the progress registry. -/
inductive ProgressQuery where
  | notFound : ProgressQuery
  | ok : ℚ → String → ProgressQuery
deriving DecidableEq

/-- The progress endpoint on one operation id: 404 when the id has no
registry entry, otherwise the stored percent with its status label. -/
def get_operation_progress (entry : Option ℚ) : ProgressQuery :=
  match entry with
  | none => ProgressQuery.notFound
  | some p => ProgressQuery.ok p (statusOf p)

/-- Registry entry of an operation, `elapsed` time units after it reached
terminal percent `terminal`: the `finally` block waits 300 units and then
deletes the entry. -/
def registryAfter (terminal : ℚ) (elapsed : Nat) : Option ℚ :=
  if elapsed < 300 then some terminal else none

/-- Mutable state of one running engine instance: the store, the
`processed` counter, and the sequence of percentages written so far. -/
structure EngState where
  db : DB
  processed : Nat
  trace : List ℚ
deriving DecidableEq

/-- Outcome of one background task: final store, final registry value,
all intermediate registry writes, final `processed`, and whether the task
re-raised an exception out of its handler. -/
structure MigResult where
  db : DB
  progress : ℚ
  trace : List ℚ
  processed : Nat
  raised : Bool
deriving DecidableEq

/-- Candidate set of one move page: the deduplicated slice intersected
with current source membership (`valid_company_ids`). -/
def moveValid (src : Nat) (db : DB) (batch : List Nat) : List Nat :=
  batch.dedup.filter (fun c => hasAssoc db c src)

/-- Batch-insert stage of one move page: append the candidates absent
from the target, unless the commit raises `IntegrityError`, in which case
the rollback leaves the store unchanged. -/
def moveInsert (tgt src : Nat) (insertFails : Bool) (db : DB) (batch : List Nat) : DB :=
  if insertFails then db
  else db ++ ((moveValid src db batch).filter (fun c => !hasAssoc db c tgt)).map
    (fun c => (c, tgt))

/-- One page of `move_companies_background` (lines 320-402): dedup the
slice, intersect with current source membership, insert the absent ids
into the target (unless the batch insert fails and is rolled back), run
the liked-invariant branch, then delete the candidates from the source. -/
def movePage (l tgt src : Nat) (insertFails : Bool) (db : DB) (batch : List Nat) : DB :=
  (moveValid src db batch).foldl (fun d c => removeFirst d (c, src))
    (if tgt = l then
      (moveValid src db batch).foldl (fun d c => insertLiked l d c)
        (moveInsert tgt src insertFails db batch)
    else
      (moveValid src db batch).foldl (fun d c => removeFirst d (c, l))
        (moveInsert tgt src insertFails db batch))

/-- The `for i in range(0, len(company_ids), batch_size)` loop of
`move_companies_background`.  Each iteration consumes at least one id, so
`fuel := company_ids.length` is enough fuel to drain the list. -/
def moveLoop (l tgt src : Nat) (fails : Nat → Bool) (total : Nat) :
    Nat → EngState → List Nat → Nat → EngState
  | 0, st, _, _ => st
  | _fuel + 1, st, [], _ => st
  | fuel + 1, st, x :: xs, page =>
    let batch := (x :: xs).take batchSize
    let db' := movePage l tgt src (fails page) st.db batch
    let processed' := st.processed + batch.length
    moveLoop l tgt src fails total fuel
      ⟨db', processed', st.trace ++ [progressOf processed' total]⟩
      ((x :: xs).drop batchSize) (page + 1)

/-- `move_companies_background`: resolve the liked collection (failure
sets the `-1` sentinel and re-raises), run the page loop, then set the
registry to 100.  `total_units` is the pre-dedup length of the id list,
as computed by the launcher. -/
def moveBackground (cs : List (Nat × String)) (src tgt : Nat) (ids : List Nat)
    (fails : Nat → Bool) (db : DB) : MigResult :=
  match resolveLiked cs with
  | none => ⟨db, -1, [], 0, true⟩
  | some l =>
    let st := moveLoop l tgt src fails ids.length ids.length ⟨db, 0, []⟩ ids 0
    ⟨st.db, 100, st.trace, st.processed, false⟩

/-- Page slice of the copy engine: the source listing at offset
`processed`, limited to one batch. -/
def copySlice (src : Nat) (db : DB) (processed : Nat) : DB :=
  ((assocsIn db src).drop processed).take batchSize

/-- Batch-insert stage of one copy page: append the slice's ids absent
from the target, unless the commit raises `IntegrityError`, in which case
the rollback leaves the store unchanged. -/
def copyInsert (tgt src : Nat) (insertFails : Bool) (db : DB) (processed : Nat) : DB :=
  if insertFails then db
  else db ++ ((copySlice src db processed).filter (fun a => !hasAssoc db a.1 tgt)).map
    (fun a => (a.1, tgt))

/-- One page of `copy_companies_background` (lines 180-248): slice the
source listing at offset `processed`, insert the slice's ids absent from
the target (unless the batch insert fails and is rolled back), then run
the liked-invariant branch over the full slice.  Returns the new store
and the slice length (the page's candidate count). -/
def copyPage (l tgt src : Nat) (insertFails : Bool) (db : DB) (processed : Nat) :
    DB × Nat :=
  ((if tgt = l then
      (copySlice src db processed).foldl (fun d a => insertLiked l d a.1)
        (copyInsert tgt src insertFails db processed)
    else
      (copySlice src db processed).foldl (fun d a => removeFirst d (a.1, l))
        (copyInsert tgt src insertFails db processed)),
    (copySlice src db processed).length)

/-- The `while processed < total_companies` loop of
`copy_companies_background`, with the `if not companies: break` guard.
Each non-breaking iteration advances `processed` by at least one, so
`fuel := total` is enough fuel. -/
def copyLoop (l tgt src total : Nat) (fails : Nat → Bool) :
    Nat → EngState → Nat → EngState
  | 0, st, _ => st
  | fuel + 1, st, page =>
    if st.processed < total then
      if (copyPage l tgt src (fails page) st.db st.processed).2 = 0 then st
      else
        copyLoop l tgt src total fails fuel
          ⟨(copyPage l tgt src (fails page) st.db st.processed).1,
            st.processed + (copyPage l tgt src (fails page) st.db st.processed).2,
            st.trace ++ [progressOf
              (st.processed + (copyPage l tgt src (fails page) st.db st.processed).2)
              total]⟩ (page + 1)
    else st

/-- `copy_companies_background`: resolve the liked collection (failure
sets the `-1` sentinel and re-raises), run the page loop with the
launcher's snapshot `total`, then set the registry to 100. -/
def copyBackground (cs : List (Nat × String)) (src tgt total : Nat)
    (fails : Nat → Bool) (db : DB) : MigResult :=
  match resolveLiked cs with
  | none => ⟨db, -1, [], 0, true⟩
  | some l =>
    let st := copyLoop l tgt src total fails total ⟨db, 0, []⟩ 0
    ⟨st.db, 100, st.trace, st.processed, false⟩

/-- `copy_collection_companies` launcher composed with its background
task: `total_units` is the source association count at launch time. -/
def launchCopy (cs : List (Nat × String)) (src tgt : Nat) (fails : Nat → Bool)
    (db : DB) : MigResult :=
  copyBackground cs src tgt (assocsIn db src).length fails db

/-- Oracle for runs in which no batch insert raises `IntegrityError`. -/
def noFail : Nat → Bool := fun _ => false

/-! ### Basic store lemmas -/

theorem hasAssoc_iff {db : DB} {c coll : Nat} :
    hasAssoc db c coll = true ↔ (c, coll) ∈ db := by
  simp [hasAssoc]

theorem mem_assocsIn {db : DB} {coll : Nat} {a : Assoc} :
    a ∈ assocsIn db coll ↔ a ∈ db ∧ a.2 = coll := by
  simp [assocsIn, List.mem_filter]

theorem assocsIn_append (d1 d2 : DB) (coll : Nat) :
    assocsIn (d1 ++ d2) coll = assocsIn d1 coll ++ assocsIn d2 coll := by
  simp [assocsIn, List.filter_append]

theorem snd_eq_of_mem_assocsIn {db : DB} {coll : Nat} {a : Assoc}
    (h : a ∈ assocsIn db coll) : a = (a.1, coll) := by
  have h2 := (mem_assocsIn.mp h).2
  cases a
  simp_all

theorem cnt_append (d1 d2 : DB) (p : Assoc) :
    cnt (d1 ++ d2) p = cnt d1 p + cnt d2 p := by
  induction d1 with
  | nil => simp [cnt]
  | cons a rest ih => simp [cnt, ih]; omega

theorem mem_iff_cnt_pos {db : DB} {p : Assoc} : p ∈ db ↔ 0 < cnt db p := by
  induction db with
  | nil => simp [cnt]
  | cons a rest ih =>
    by_cases h : a = p
    · subst h; simp [cnt]
    · simp [cnt, h, ih, Ne.symm h]

theorem cnt_eq_zero_of_not_mem {db : DB} {p : Assoc} (h : p ∉ db) :
    cnt db p = 0 := by
  rw [mem_iff_cnt_pos] at h
  omega

theorem removeFirst_of_not_mem {db : DB} {p : Assoc} (h : p ∉ db) :
    removeFirst db p = db := by
  induction db with
  | nil => rfl
  | cons a rest ih =>
    simp only [List.mem_cons, not_or] at h
    simp [removeFirst, Ne.symm, h.1, ih h.2]

theorem cnt_removeFirst_self (db : DB) (p : Assoc) :
    cnt (removeFirst db p) p = cnt db p - 1 := by
  induction db with
  | nil => simp [removeFirst, cnt]
  | cons a rest ih =>
    by_cases h : a = p
    · subst h; simp [removeFirst, cnt]
    · simp [removeFirst, h, cnt, ih]

theorem cnt_removeFirst_ne {q p : Assoc} (h : q ≠ p) (db : DB) :
    cnt (removeFirst db p) q = cnt db q := by
  induction db with
  | nil => rfl
  | cons a rest ih =>
    by_cases ha : a = p
    · subst ha; simp [removeFirst, cnt, Ne.symm h]
    · simp [removeFirst, ha, cnt, ih]

theorem cnt_removeFirst_le (db : DB) (p q : Assoc) :
    cnt (removeFirst db p) q ≤ cnt db q := by
  by_cases h : q = p
  · subst h; rw [cnt_removeFirst_self]; omega
  · rw [cnt_removeFirst_ne h]

theorem mem_removeFirst_of_ne {q p : Assoc} (h : q ≠ p) {db : DB} :
    q ∈ removeFirst db p ↔ q ∈ db := by
  rw [mem_iff_cnt_pos, mem_iff_cnt_pos, cnt_removeFirst_ne h]

theorem nodup_removeFirst {db : DB} (h : db.Nodup) (p : Assoc) :
    (removeFirst db p).Nodup := by
  induction db with
  | nil => exact h
  | cons a rest ih =>
    rw [List.nodup_cons] at h
    by_cases ha : a = p
    · simpa [removeFirst, ha] using h.2
    · rw [removeFirst, if_neg ha, List.nodup_cons]
      refine ⟨fun hc => h.1 ?_, ih h.2⟩
      by_cases haq : a = p
      · exact absurd haq ha
      · exact (mem_removeFirst_of_ne haq).mp hc

theorem cnt_le_one_of_nodup {db : DB} (h : db.Nodup) (p : Assoc) :
    cnt db p ≤ 1 := by
  induction db with
  | nil => simp [cnt]
  | cons a rest ih =>
    rw [List.nodup_cons] at h
    by_cases ha : a = p
    · subst ha
      have := cnt_eq_zero_of_not_mem h.1
      simp [cnt, this]
    · simp [cnt, ha, ih h.2]

theorem assocsIn_removeFirst_ne {p : Assoc} {s : Nat} (h : p.2 ≠ s) (db : DB) :
    assocsIn (removeFirst db p) s = assocsIn db s := by
  induction db with
  | nil => rfl
  | cons a rest ih =>
    by_cases ha : a = p
    · subst ha
      have : decide (a.2 = s) = false := by simp [h]
      simp [removeFirst, assocsIn, this]
    · by_cases has : a.2 = s
      · simp [removeFirst, ha, assocsIn, has] at ih ⊢
        exact ih
      · simp [removeFirst, ha, assocsIn, has] at ih ⊢
        exact ih

/-! ### Lemmas on the liked-insert step and its fold -/

theorem mem_insertLiked_mono {q : Assoc} {d : DB} (h : q ∈ d) (l c : Nat) :
    q ∈ insertLiked l d c := by
  unfold insertLiked
  split
  · exact h
  · exact List.mem_append_left _ h

theorem mem_insertLiked_self (l : Nat) (d : DB) (c : Nat) :
    (c, l) ∈ insertLiked l d c := by
  unfold insertLiked
  split
  · exact hasAssoc_iff.mp (by assumption)
  · simp

theorem insertLiked_of_mem {l c : Nat} {d : DB} (h : (c, l) ∈ d) :
    insertLiked l d c = d := by
  unfold insertLiked
  rw [if_pos (hasAssoc_iff.mpr h)]

theorem nodup_insertLiked {d : DB} (h : d.Nodup) (l c : Nat) :
    (insertLiked l d c).Nodup := by
  unfold insertLiked
  split
  · exact h
  · refine List.Nodup.append h (by simp) ?_
    intro x hx hx2
    simp at hx2
    subst hx2
    exact absurd (hasAssoc_iff.mpr hx) (by simp_all)

theorem assocsIn_insertLiked_ne {l s : Nat} (h : l ≠ s) (d : DB) (c : Nat) :
    assocsIn (insertLiked l d c) s = assocsIn d s := by
  unfold insertLiked
  split
  · rfl
  · rw [assocsIn_append]
    have : assocsIn [(c, l)] s = [] := by simp [assocsIn, h]
    simp [this]

theorem foldInsert_mono {q : Assoc} {d : DB} (h : q ∈ d) (l : Nat) (L : List Nat) :
    q ∈ L.foldl (fun d c => insertLiked l d c) d := by
  induction L generalizing d with
  | nil => exact h
  | cons c rest ih => exact ih (mem_insertLiked_mono h l c)

theorem foldInsert_mem {c : Nat} {L : List Nat} (h : c ∈ L) (l : Nat) (d : DB) :
    (c, l) ∈ L.foldl (fun d c => insertLiked l d c) d := by
  induction L generalizing d with
  | nil => cases h
  | cons x rest ih =>
    rcases List.mem_cons.mp h with h1 | h2
    · subst h1
      exact foldInsert_mono (mem_insertLiked_self l d c) l rest
    · exact ih h2 _

theorem foldInsert_noop {l : Nat} {L : List Nat} {d : DB}
    (h : ∀ c ∈ L, (c, l) ∈ d) : L.foldl (fun d c => insertLiked l d c) d = d := by
  induction L with
  | nil => rfl
  | cons x rest ih =>
    have hx : insertLiked l d x = d := insertLiked_of_mem (h x (by simp))
    simp only [List.foldl_cons, hx]
    exact ih (fun c hc => h c (List.mem_cons_of_mem x hc))

theorem assocsIn_foldInsert_ne {l s : Nat} (h : l ≠ s) (L : List Nat) (d : DB) :
    assocsIn (L.foldl (fun d c => insertLiked l d c) d) s = assocsIn d s := by
  induction L generalizing d with
  | nil => rfl
  | cons x rest ih =>
    simp only [List.foldl_cons]
    rw [ih, assocsIn_insertLiked_ne h]

theorem nodup_foldInsert {d : DB} (h : d.Nodup) (l : Nat) (L : List Nat) :
    (L.foldl (fun d c => insertLiked l d c) d).Nodup := by
  induction L generalizing d with
  | nil => exact h
  | cons x rest ih => exact ih (nodup_insertLiked h l x)

/-! ### Lemmas on the first-match-removal folds -/

theorem foldRemove_cnt_le (coll : Nat) (L : List Nat) (d : DB) (q : Assoc) :
    cnt (L.foldl (fun d c => removeFirst d (c, coll)) d) q ≤ cnt d q := by
  induction L generalizing d with
  | nil => exact Nat.le_refl _
  | cons x rest ih =>
    simp only [List.foldl_cons]
    exact Nat.le_trans (ih _) (cnt_removeFirst_le _ _ _)

theorem foldRemove_cnt_ne {coll : Nat} {q : Assoc} {L : List Nat}
    (h : ∀ c ∈ L, q ≠ (c, coll)) (d : DB) :
    cnt (L.foldl (fun d c => removeFirst d (c, coll)) d) q = cnt d q := by
  induction L generalizing d with
  | nil => rfl
  | cons x rest ih =>
    simp only [List.foldl_cons]
    rw [ih (fun c hc => h c (List.mem_cons_of_mem x hc)),
      cnt_removeFirst_ne (h x (by simp))]

theorem foldRemove_cnt_zero {coll c : Nat} {L : List Nat} (hc : c ∈ L) {d : DB}
    (h1 : cnt d (c, coll) ≤ 1) :
    cnt (L.foldl (fun d c => removeFirst d (c, coll)) d) (c, coll) = 0 := by
  induction L generalizing d with
  | nil => cases hc
  | cons x rest ih =>
    simp only [List.foldl_cons]
    by_cases hx : x = c
    · subst hx
      have h0 : cnt (removeFirst d (x, coll)) (x, coll) = 0 := by
        rw [cnt_removeFirst_self]; omega
      have := foldRemove_cnt_le coll rest (removeFirst d (x, coll)) (x, coll)
      omega
    · rcases List.mem_cons.mp hc with h1c | h2c
      · exact absurd h1c.symm hx
      · exact ih h2c (Nat.le_trans (cnt_removeFirst_le _ _ _) h1)

theorem foldRemove_mem_snd {coll : Nat} {q : Assoc} {d : DB} (h : q ∈ d)
    (hs : q.2 ≠ coll) (L : List Nat) :
    q ∈ L.foldl (fun d c => removeFirst d (c, coll)) d := by
  rw [mem_iff_cnt_pos] at h ⊢
  rw [foldRemove_cnt_ne (fun c _ hq => hs (by rw [hq]))]
  exact h

theorem foldRemove_mem_fst {coll : Nat} {q : Assoc} {L : List Nat} {d : DB}
    (h : q ∈ d) (hf : q.1 ∉ L) :
    q ∈ L.foldl (fun d c => removeFirst d (c, coll)) d := by
  rw [mem_iff_cnt_pos] at h ⊢
  rw [foldRemove_cnt_ne (fun c hc hq => hf (by subst hq; simpa using hc))]
  exact h

theorem foldRemove_noop {coll : Nat} {L : List Nat} {d : DB}
    (h : ∀ c ∈ L, (c, coll) ∉ d) :
    L.foldl (fun d c => removeFirst d (c, coll)) d = d := by
  induction L with
  | nil => rfl
  | cons x rest ih =>
    simp only [List.foldl_cons, removeFirst_of_not_mem (h x (by simp))]
    exact ih (fun c hc => h c (List.mem_cons_of_mem x hc))

theorem assocsIn_foldRemove_ne {coll s : Nat} (h : coll ≠ s) (L : List Nat) (d : DB) :
    assocsIn (L.foldl (fun d c => removeFirst d (c, coll)) d) s = assocsIn d s := by
  induction L generalizing d with
  | nil => rfl
  | cons x rest ih =>
    simp only [List.foldl_cons]
    rw [ih, assocsIn_removeFirst_ne (by simpa using h)]

theorem nodup_foldRemove {d : DB} (h : d.Nodup) (coll : Nat) (L : List Nat) :
    (L.foldl (fun d c => removeFirst d (c, coll)) d).Nodup := by
  induction L generalizing d with
  | nil => exact h
  | cons x rest ih => exact ih (nodup_removeFirst h _)

/-! ### Per-page lemmas for the move engine -/

theorem mem_moveValid {db : DB} {batch : List Nat} {src c : Nat} :
    c ∈ moveValid src db batch ↔ c ∈ batch ∧ (c, src) ∈ db := by
  simp [moveValid, List.mem_filter, List.mem_dedup, hasAssoc]

theorem nodup_moveValid (src : Nat) (db : DB) (batch : List Nat) :
    (moveValid src db batch).Nodup :=
  (List.nodup_dedup batch).filter _

theorem mem_moveInsert_mono {q : Assoc} {db : DB} (h : q ∈ db)
    (tgt src : Nat) (f : Bool) (batch : List Nat) :
    q ∈ moveInsert tgt src f db batch := by
  unfold moveInsert
  split
  · exact h
  · exact List.mem_append_left _ h

theorem cnt_moveInsert_ne {tgt src : Nat} {q : Assoc} (h : q.2 ≠ tgt)
    (f : Bool) (db : DB) (batch : List Nat) :
    cnt (moveInsert tgt src f db batch) q = cnt db q := by
  unfold moveInsert
  split
  · rfl
  · rw [cnt_append]
    have : cnt ((((moveValid src db batch).filter
        (fun c => !hasAssoc db c tgt)).map (fun c => (c, tgt)))) q = 0 := by
      apply cnt_eq_zero_of_not_mem
      intro hmem
      rcases List.mem_map.mp hmem with ⟨x, _, hx⟩
      exact h (by rw [hx.symm])
    omega

/-- Into-liked move pages establish the liked association for every valid
candidate, whether or not the page's batch insert succeeded. -/
theorem movePage_liked_mem {l tgt src : Nat} (htgt : tgt = l) (hsl : src ≠ l)
    (f : Bool) {db : DB} {batch : List Nat} {c : Nat}
    (hc : c ∈ batch) (hm : (c, src) ∈ db) :
    (c, l) ∈ movePage l tgt src f db batch := by
  unfold movePage
  rw [if_pos htgt]
  apply foldRemove_mem_snd
  · subst htgt
    exact foldInsert_mem (mem_moveValid.mpr ⟨hc, hm⟩) _ _
  · exact Ne.symm hsl

/-- Into-liked move pages never delete an existing liked association when
the source is not the liked collection. -/
theorem movePage_liked_pres {l tgt src : Nat} (htgt : tgt = l) (hsl : src ≠ l)
    (f : Bool) {db : DB} {batch : List Nat} {c : Nat} (hq : (c, l) ∈ db) :
    (c, l) ∈ movePage l tgt src f db batch := by
  unfold movePage
  rw [if_pos htgt]
  apply foldRemove_mem_snd
  · exact foldInsert_mono (mem_moveInsert_mono hq tgt src f batch) l _
  · exact Ne.symm hsl

/-- Into-liked move pages keep the source association of any record id not
in the page's slice. -/
theorem movePage_src_pres {l tgt src : Nat} (htgt : tgt = l)
    (f : Bool) {db : DB} {batch : List Nat} {c : Nat}
    (hm : (c, src) ∈ db) (hb : c ∉ batch) :
    (c, src) ∈ movePage l tgt src f db batch := by
  unfold movePage
  rw [if_pos htgt]
  apply foldRemove_mem_fst
  · exact foldInsert_mono (mem_moveInsert_mono hm tgt src f batch) l _
  · simp only []
    intro hcv
    exact hb (mem_moveValid.mp hcv).1

/-- Out-of-liked move pages never increase the multiplicity of a liked
association. -/
theorem movePage_cnt_liked_le {l tgt src : Nat} (htl : tgt ≠ l)
    (f : Bool) (db : DB) (batch : List Nat) (c : Nat) :
    cnt (movePage l tgt src f db batch) (c, l) ≤ cnt db (c, l) := by
  unfold movePage
  rw [if_neg htl]
  refine Nat.le_trans (foldRemove_cnt_le _ _ _ _)
    (Nat.le_trans (foldRemove_cnt_le _ _ _ _) ?_)
  rw [cnt_moveInsert_ne (Ne.symm htl)]

/-- A move page out of the liked collection clears the (unique) liked
association of every id in its slice. -/
theorem movePage_cnt_liked_zero {l tgt src : Nat} (hsrc : src = l) (htl : tgt ≠ l)
    (f : Bool) {db : DB} {batch : List Nat} {c : Nat}
    (hcnt : cnt db (c, l) ≤ 1) (hc : c ∈ batch) :
    cnt (movePage l tgt src f db batch) (c, l) = 0 := by
  rcases Nat.lt_or_ge (cnt db (c, l)) 1 with h0 | h1
  · have := @movePage_cnt_liked_le l tgt src htl f db batch c
    omega
  · have hmem : (c, src) ∈ db := by rw [hsrc]; exact mem_iff_cnt_pos.mpr (by omega)
    have hcv : c ∈ moveValid src db batch := mem_moveValid.mpr ⟨hc, hmem⟩
    unfold movePage
    rw [if_neg htl]
    have hins : cnt (moveInsert tgt src f db batch) (c, l) ≤ 1 := by
      rw [cnt_moveInsert_ne (Ne.symm htl)]
      exact hcnt
    have h2 := foldRemove_cnt_zero hcv hins
    have h3 := foldRemove_cnt_le src (moveValid src db batch)
      ((moveValid src db batch).foldl (fun d c => removeFirst d (c, l))
        (moveInsert tgt src f db batch)) (c, l)
    omega

theorem moveValid_filter_self_nil {db : DB} {batch : List Nat} {src tgt : Nat}
    (hst : src = tgt) :
    (moveValid src db batch).filter (fun c => !hasAssoc db c tgt) = [] := by
  rw [List.filter_eq_nil_iff]
  intro a ha
  have := (mem_moveValid.mp ha).2
  rw [hst] at this
  simp [hasAssoc, this]

theorem moveInsert_self_eq {db : DB} {batch : List Nat} {src tgt : Nat}
    (hst : src = tgt) (f : Bool) :
    moveInsert tgt src f db batch = db := by
  unfold moveInsert
  rw [moveValid_filter_self_nil hst]
  cases f <;> simp

/-- A self-move page only removes rows: no multiplicity ever grows. -/
theorem movePage_cnt_le_self {l tgt src : Nat} (hst : src = tgt)
    (f : Bool) (db : DB) (batch : List Nat) (q : Assoc) :
    cnt (movePage l tgt src f db batch) q ≤ cnt db q := by
  unfold movePage
  rw [moveInsert_self_eq hst]
  by_cases htl : tgt = l
  · rw [if_pos htl]
    have hnoop : (moveValid src db batch).foldl (fun d c => insertLiked l d c) db = db := by
      apply foldInsert_noop
      intro x hxv
      have := (mem_moveValid.mp hxv).2
      rw [hst, htl] at this
      exact this
    rw [hnoop]
    exact foldRemove_cnt_le _ _ _ _
  · rw [if_neg htl]
    exact Nat.le_trans (foldRemove_cnt_le _ _ _ _) (foldRemove_cnt_le _ _ _ _)

/-- A self-move page deletes the (unique) membership row of every id in
its slice. -/
theorem movePage_cnt_self_zero {l tgt src : Nat} (hst : src = tgt)
    (f : Bool) {db : DB} {batch : List Nat} {c : Nat}
    (hcnt : cnt db (c, src) ≤ 1) (hc : c ∈ batch) :
    cnt (movePage l tgt src f db batch) (c, src) = 0 := by
  rcases Nat.lt_or_ge (cnt db (c, src)) 1 with h0 | h1
  · have := @movePage_cnt_le_self l tgt src hst f db batch (c, src)
    omega
  · have hmem : (c, src) ∈ db := mem_iff_cnt_pos.mpr (by omega)
    have hcv : c ∈ moveValid src db batch := mem_moveValid.mpr ⟨hc, hmem⟩
    unfold movePage
    rw [moveInsert_self_eq hst]
    by_cases htl : tgt = l
    · rw [if_pos htl]
      have hnoop : (moveValid src db batch).foldl
          (fun d c => insertLiked l d c) db = db := by
        apply foldInsert_noop
        intro x hxv
        have := (mem_moveValid.mp hxv).2
        rw [hst, htl] at this
        exact this
      rw [hnoop]
      exact foldRemove_cnt_zero hcv hcnt
    · rw [if_neg htl]
      have hmid : cnt ((moveValid src db batch).foldl
          (fun d c => removeFirst d (c, l)) db) (c, src) = cnt db (c, src) := by
        apply foldRemove_cnt_ne
        intro x _ hq
        have h2 : src = l := congrArg Prod.snd hq
        rw [hst] at h2
        exact htl h2
      exact foldRemove_cnt_zero hcv (by omega)

/-! ### Loop-level lemmas for the move engine -/

/-- Cumulative registry writes predicted from the raw slice lengths alone:
each page advances the processed counter by the raw (pre-dedup,
pre-intersection) length of its slice, `min batchSize remaining`.  This
characterizes the trace of a move run independently of the store. -/
def rawCumTrace (total : Nat) : Nat → Nat → Nat → List ℚ
  | 0, _, _ => []
  | fuel + 1, processed, n =>
    if n = 0 then []
    else progressOf (processed + min batchSize n) total ::
      rawCumTrace total fuel (processed + min batchSize n) (n - min batchSize n)

theorem drop_batch_length_le {x : Nat} {xs : List Nat} {fuel : Nat}
    (h : (x :: xs).length ≤ fuel + 1) :
    ((x :: xs).drop batchSize).length ≤ fuel := by
  rw [List.length_drop]
  simp only [List.length_cons] at h ⊢
  have hb : batchSize = 200 := rfl
  omega

theorem moveLoop_trace (l tgt src : Nat) (fails : Nat → Bool) (total : Nat) :
    ∀ (fuel : Nat) (st : EngState) (ids : List Nat) (page : Nat),
      (moveLoop l tgt src fails total fuel st ids page).trace =
        st.trace ++ rawCumTrace total fuel st.processed ids.length := by
  intro fuel
  induction fuel with
  | zero => intro st ids page; simp [moveLoop, rawCumTrace]
  | succ fuel ih =>
    intro st ids page
    cases ids with
    | nil => simp [moveLoop, rawCumTrace]
    | cons x xs =>
      rw [moveLoop, ih]
      have hb : ((x :: xs).take batchSize).length = min batchSize (x :: xs).length :=
        List.length_take _ _
      have hd : ((x :: xs).drop batchSize).length = (x :: xs).length - batchSize :=
        List.length_drop _ _
      have hn : (x :: xs).length ≠ 0 := by simp
      rw [rawCumTrace, if_neg hn]
      simp only [hb, hd]
      have harith : (x :: xs).length - batchSize =
          (x :: xs).length - min batchSize (x :: xs).length := by
        omega
      rw [harith, List.append_assoc]
      rfl

theorem moveLoop_processed (l tgt src : Nat) (fails : Nat → Bool) (total : Nat) :
    ∀ (fuel : Nat) (st : EngState) (ids : List Nat) (page : Nat),
      ids.length ≤ fuel →
      (moveLoop l tgt src fails total fuel st ids page).processed =
        st.processed + ids.length := by
  intro fuel
  induction fuel with
  | zero =>
    intro st ids page h
    have : ids = [] := List.length_eq_zero.mp (by omega)
    subst this
    simp [moveLoop]
  | succ fuel ih =>
    intro st ids page h
    cases ids with
    | nil => simp [moveLoop]
    | cons x xs =>
      rw [moveLoop, ih]
      · have hb : ((x :: xs).take batchSize).length = min batchSize (x :: xs).length :=
          List.length_take _ _
        have hd : ((x :: xs).drop batchSize).length = (x :: xs).length - batchSize :=
          List.length_drop _ _
        simp only [hb, hd]
        have hmin : min batchSize (x :: xs).length ≤ (x :: xs).length :=
          Nat.min_le_right _ _
        omega
      · exact drop_batch_length_le h

/-- Invariant induction for moves into the liked collection: once a listed
source member acquires its liked association, nothing removes it. -/
theorem moveLoop_liked {l tgt src : Nat} (htgt : tgt = l) (hsl : src ≠ l)
    (fails : Nat → Bool) (total : Nat) :
    ∀ (fuel : Nat) (st : EngState) (ids : List Nat) (page : Nat) (c : Nat),
      ids.length ≤ fuel →
      ((c ∈ ids ∧ (c, src) ∈ st.db) ∨ (c, l) ∈ st.db) →
      (c, l) ∈ (moveLoop l tgt src fails total fuel st ids page).db := by
  intro fuel
  induction fuel with
  | zero =>
    intro st ids page c h hinv
    have : ids = [] := List.length_eq_zero.mp (by omega)
    subst this
    rcases hinv with ⟨hin, _⟩ | hl
    · cases hin
    · simpa [moveLoop] using hl
  | succ fuel ih =>
    intro st ids page c h hinv
    cases ids with
    | nil =>
      rcases hinv with ⟨hin, _⟩ | hl
      · cases hin
      · simpa [moveLoop] using hl
    | cons x xs =>
      rw [moveLoop]
      apply ih
      · exact drop_batch_length_le h
      · rcases hinv with ⟨hin, hmem⟩ | hl
        · by_cases hb : c ∈ (x :: xs).take batchSize
          · exact Or.inr (movePage_liked_mem htgt hsl _ hb hmem)
          · left
            constructor
            · have := (List.take_append_drop batchSize (x :: xs)).symm
              rw [this] at hin
              rcases List.mem_append.mp hin with h1 | h2
              · exact absurd h1 hb
              · exact h2
            · exact movePage_src_pres htgt _ hmem hb
        · exact Or.inr (movePage_liked_pres htgt hsl _ hl)

/-- Invariant induction for moves out of the liked collection: the page
containing a listed id clears its liked association, and later pages of an
out-of-liked move never insert one. -/
theorem moveLoop_unliked {l tgt src : Nat} (hsrc : src = l) (htl : tgt ≠ l)
    (fails : Nat → Bool) (total : Nat) :
    ∀ (fuel : Nat) (st : EngState) (ids : List Nat) (page : Nat) (c : Nat),
      ids.length ≤ fuel →
      cnt st.db (c, l) ≤ 1 →
      (c ∈ ids ∨ cnt st.db (c, l) = 0) →
      cnt (moveLoop l tgt src fails total fuel st ids page).db (c, l) = 0 := by
  intro fuel
  induction fuel with
  | zero =>
    intro st ids page c h h1 hinv
    have : ids = [] := List.length_eq_zero.mp (by omega)
    subst this
    rcases hinv with hin | h0
    · cases hin
    · simpa [moveLoop] using h0
  | succ fuel ih =>
    intro st ids page c h h1 hinv
    cases ids with
    | nil =>
      rcases hinv with hin | h0
      · cases hin
      · simpa [moveLoop] using h0
    | cons x xs =>
      rw [moveLoop]
      have hfuel : ((x :: xs).drop batchSize).length ≤ fuel :=
        drop_batch_length_le h
      have hle := @movePage_cnt_liked_le l tgt src htl (fails page)
        st.db ((x :: xs).take batchSize) c
      rcases hinv with hin | h0
      · by_cases hb : c ∈ (x :: xs).take batchSize
        · exact ih _ _ _ _ hfuel (by dsimp only; omega)
            (Or.inr (movePage_cnt_liked_zero hsrc htl _ h1 hb))
        · apply ih _ _ _ _ hfuel (by dsimp only; omega)
          left
          have := (List.take_append_drop batchSize (x :: xs)).symm
          rw [this] at hin
          rcases List.mem_append.mp hin with h2 | h2
          · exact absurd h2 hb
          · exact h2
      · exact ih _ _ _ _ hfuel (by dsimp only; omega) (Or.inr (by dsimp only; omega))

/-- Invariant induction for self-moves: multiplicities never grow. -/
theorem moveLoop_cnt_le {l tgt src : Nat} (hst : src = tgt)
    (fails : Nat → Bool) (total : Nat) :
    ∀ (fuel : Nat) (st : EngState) (ids : List Nat) (page : Nat) (q : Assoc),
      cnt (moveLoop l tgt src fails total fuel st ids page).db q ≤ cnt st.db q := by
  intro fuel
  induction fuel with
  | zero => intro st ids page q; simp [moveLoop]
  | succ fuel ih =>
    intro st ids page q
    cases ids with
    | nil => simp [moveLoop]
    | cons x xs =>
      rw [moveLoop]
      exact Nat.le_trans (ih _ _ _ _) (movePage_cnt_le_self hst _ _ _ _)

/-- Invariant induction for self-moves: the page containing a listed id
deletes its membership row, and later pages never insert anything. -/
theorem moveLoop_self_zero {l tgt src : Nat} (hst : src = tgt)
    (fails : Nat → Bool) (total : Nat) :
    ∀ (fuel : Nat) (st : EngState) (ids : List Nat) (page : Nat) (c : Nat),
      ids.length ≤ fuel →
      cnt st.db (c, src) ≤ 1 →
      (c ∈ ids ∨ cnt st.db (c, src) = 0) →
      cnt (moveLoop l tgt src fails total fuel st ids page).db (c, src) = 0 := by
  intro fuel
  induction fuel with
  | zero =>
    intro st ids page c h h1 hinv
    have : ids = [] := List.length_eq_zero.mp (by omega)
    subst this
    rcases hinv with hin | h0
    · cases hin
    · simpa [moveLoop] using h0
  | succ fuel ih =>
    intro st ids page c h h1 hinv
    cases ids with
    | nil =>
      rcases hinv with hin | h0
      · cases hin
      · simpa [moveLoop] using h0
    | cons x xs =>
      rw [moveLoop]
      have hfuel : ((x :: xs).drop batchSize).length ≤ fuel :=
        drop_batch_length_le h
      have hle := @movePage_cnt_le_self l tgt src hst (fails page)
        st.db ((x :: xs).take batchSize) (c, src)
      rcases hinv with hin | h0
      · by_cases hb : c ∈ (x :: xs).take batchSize
        · exact ih _ _ _ _ hfuel (by dsimp only; omega)
            (Or.inr (movePage_cnt_self_zero hst _ h1 hb))
        · apply ih _ _ _ _ hfuel (by dsimp only; omega)
          left
          have := (List.take_append_drop batchSize (x :: xs)).symm
          rw [this] at hin
          rcases List.mem_append.mp hin with h2 | h2
          · exact absurd h2 hb
          · exact h2
      · exact ih _ _ _ _ hfuel (by dsimp only; omega) (Or.inr (by dsimp only; omega))

/-! ### Status label helpers -/

theorem statusOf_100 : statusOf 100 = "completed" := by
  norm_num [statusOf]

theorem statusOf_neg1 : statusOf (-1) = "error" := by
  norm_num [statusOf]

/-! ### Claim theorems: progress registry, error handling, zero totals -/

/-- C9: querying an operation id with no registry entry yields NotFound
(never a zero-progress answer), and once the 300-unit retention window has
elapsed past an operation's terminal state its entry is gone, so the same
query likewise yields NotFound. -/
theorem progress_query_notfound :
    get_operation_progress none = ProgressQuery.notFound ∧
    (∀ q : ℚ, get_operation_progress none ≠ ProgressQuery.ok q (statusOf q)) ∧
    (∀ (v : ℚ) (elapsed : Nat), 300 ≤ elapsed →
      registryAfter v elapsed = none ∧
      get_operation_progress (registryAfter v elapsed) = ProgressQuery.notFound) := by
  refine ⟨rfl, ?_, ?_⟩
  · intro q h
    exact ProgressQuery.noConfusion h
  · intro v elapsed he
    have : registryAfter v elapsed = none := by
      unfold registryAfter
      rw [if_neg (by omega)]
    exact ⟨this, by rw [this]; rfl⟩

theorem progress_query_notfound_witness :
    registryAfter 100 300 = none ∧
    get_operation_progress (registryAfter 100 300) = ProgressQuery.notFound :=
  progress_query_notfound.2.2 100 300 (Nat.le_refl 300)

/-- C7: when the liked collection cannot be resolved by its well-known
name, both background tasks fail before any page of data movement: the
store is untouched, no per-page progress is written, the registry entry is
the failure sentinel `-1` (distinct from every valid percentage, and
mapped to the `error` status label), and the engine performs no retry. -/
theorem missing_liked_fails_operation (cs : List (Nat × String))
    (src tgt total : Nat) (ids : List Nat) (fails : Nat → Bool) (db : DB)
    (h : resolveLiked cs = none) :
    (copyBackground cs src tgt total fails db).db = db ∧
    (copyBackground cs src tgt total fails db).progress = -1 ∧
    (copyBackground cs src tgt total fails db).trace = [] ∧
    (moveBackground cs src tgt ids fails db).db = db ∧
    (moveBackground cs src tgt ids fails db).progress = -1 ∧
    (moveBackground cs src tgt ids fails db).trace = [] ∧
    statusOf (copyBackground cs src tgt total fails db).progress = "error" ∧
    (∀ q : ℚ, 0 ≤ q → q ≤ 100 → q ≠ -1) := by
  unfold copyBackground moveBackground
  rw [h]
  refine ⟨rfl, rfl, rfl, rfl, rfl, rfl, statusOf_neg1, ?_⟩
  intro q h0 _ hq
  rw [hq] at h0
  norm_num at h0

theorem missing_liked_fails_operation_witness :
    (copyBackground [] 1 2 5 noFail [(7, 1)]).db = [(7, 1)] ∧
    (copyBackground [] 1 2 5 noFail [(7, 1)]).progress = -1 :=
  ⟨(missing_liked_fails_operation [] 1 2 5 [] noFail [(7, 1)] rfl).1,
    (missing_liked_fails_operation [] 1 2 5 [] noFail [(7, 1)] rfl).2.1⟩

/-- C6 counterexample: an operation launched with zero total units still
fails with the `-1` sentinel and the `error` status label when the liked
collection cannot be resolved, so a zero-unit operation does not always
terminate at percent 100 with status `completed` as the claim states. -/
theorem zero_total_missing_liked_cex :
    (copyBackground [] 1 2 0 noFail []).progress = -1 ∧
    statusOf (copyBackground [] 1 2 0 noFail []).progress = "error" ∧
    (moveBackground [] 1 2 [] noFail []).progress = -1 ∧
    statusOf (moveBackground [] 1 2 [] noFail []).progress = "error" := by
  refine ⟨rfl, ?_, rfl, ?_⟩ <;> exact statusOf_neg1

/-- C6 amended: provided the liked collection resolves, every copy or move
launched with zero total units terminates at percent exactly 100 with
status label `completed` (no page runs, no division by zero occurs, and
the store is untouched). -/
theorem zero_total_completes_amended (cs : List (Nat × String)) (l src tgt : Nat)
    (fails : Nat → Bool) (db : DB) (h : resolveLiked cs = some l) :
    (copyBackground cs src tgt 0 fails db).progress = 100 ∧
    statusOf (copyBackground cs src tgt 0 fails db).progress = "completed" ∧
    (copyBackground cs src tgt 0 fails db).db = db ∧
    (copyBackground cs src tgt 0 fails db).trace = [] ∧
    (moveBackground cs src tgt [] fails db).progress = 100 ∧
    statusOf (moveBackground cs src tgt [] fails db).progress = "completed" ∧
    (moveBackground cs src tgt [] fails db).db = db ∧
    (moveBackground cs src tgt [] fails db).trace = [] := by
  unfold copyBackground moveBackground
  rw [h]
  exact ⟨rfl, statusOf_100, rfl, rfl, rfl, statusOf_100, rfl, rfl⟩

theorem zero_total_completes_amended_witness :
    (copyBackground [(1, "Liked Companies List")] 2 3 0 noFail [(5, 2)]).progress = 100 ∧
    (moveBackground [(1, "Liked Companies List")] 2 3 [] noFail [(5, 2)]).db = [(5, 2)] :=
  ⟨(zero_total_completes_amended [(1, "Liked Companies List")] 1 2 3 noFail
      [(5, 2)] rfl).1,
    (zero_total_completes_amended [(1, "Liked Companies List")] 1 2 3 noFail
      [(5, 2)] rfl).2.2.2.2.2.2.1⟩

/-! ### Claim theorems: move-engine behaviour -/

/-- C5: moving the duplicated list `[5, 5, 6]` from a source collection
holding exactly records 5, 6, 7 into the liked collection leaves the
source with exactly record 7 and gives records 5 and 6 exactly one liked
association each; the duplicated id is neither double-counted into a
duplicate association nor an error, and the operation completes at 100. -/
theorem move_dedup_scenario :
    (moveBackground [(1, "Liked Companies List")] 2 1 [5, 5, 6] noFail
      [(5, 2), (6, 2), (7, 2)]).db = [(7, 2), (5, 1), (6, 1)] ∧
    assocsIn (moveBackground [(1, "Liked Companies List")] 2 1 [5, 5, 6] noFail
      [(5, 2), (6, 2), (7, 2)]).db 2 = [(7, 2)] ∧
    cnt (moveBackground [(1, "Liked Companies List")] 2 1 [5, 5, 6] noFail
      [(5, 2), (6, 2), (7, 2)]).db (5, 1) = 1 ∧
    cnt (moveBackground [(1, "Liked Companies List")] 2 1 [5, 5, 6] noFail
      [(5, 2), (6, 2), (7, 2)]).db (6, 1) = 1 ∧
    cnt (moveBackground [(1, "Liked Companies List")] 2 1 [5, 5, 6] noFail
      [(5, 2), (6, 2), (7, 2)]).db (5, 2) = 0 ∧
    cnt (moveBackground [(1, "Liked Companies List")] 2 1 [5, 5, 6] noFail
      [(5, 2), (6, 2), (7, 2)]).db (6, 2) = 0 ∧
    (moveBackground [(1, "Liked Companies List")] 2 1 [5, 5, 6] noFail
      [(5, 2), (6, 2), (7, 2)]).progress = 100 ∧
    statusOf (moveBackground [(1, "Liked Companies List")] 2 1 [5, 5, 6] noFail
      [(5, 2), (6, 2), (7, 2)]).progress = "completed" := by
  decide

/-- C2 counterexample: moving the list `[5, 5]` (one page) out of a source
holding record 5 advances `processed_units` by 2, the raw slice length,
although the page's deduplicated candidate set intersected with source
membership has size 1 — so the engine does not advance by the candidate
count the claim describes for moves. -/
theorem move_progress_raw_slice_cex :
    (moveBackground [(1, "Liked Companies List")] 2 3 [5, 5] noFail
      [(5, 2)]).processed = 2 ∧
    (moveValid 2 [(5, 2)] [5, 5]).length = 1 ∧
    (2 : Nat) ≠ 1 := by
  decide

/-- C2 amended: after each page of a move the engine advances
`processed_units` by the raw slice length (not the deduplicated,
source-intersected candidate count and not the inserted count), so the
whole trace of registry writes is determined by the pre-dedup list length
alone, and the final processed count is that pre-dedup total; for copy,
each page advances by the slice's candidate count, independently of how
many associations the insert stage actually wrote. -/
theorem move_progress_advancement_amended (cs : List (Nat × String))
    (l src tgt : Nat) (ids : List Nat) (fails : Nat → Bool) (db : DB)
    (h : resolveLiked cs = some l) :
    (moveBackground cs src tgt ids fails db).trace =
      rawCumTrace ids.length ids.length 0 ids.length ∧
    (moveBackground cs src tgt ids fails db).processed = ids.length ∧
    (∀ (f1 f2 : Bool) (d : DB) (proc : Nat),
      (copyPage l tgt src f1 d proc).2 = (copySlice src d proc).length ∧
      (copyPage l tgt src f1 d proc).2 = (copyPage l tgt src f2 d proc).2) := by
  unfold moveBackground
  rw [h]
  refine ⟨?_, ?_, ?_⟩
  · dsimp only
    rw [moveLoop_trace]
    rfl
  · dsimp only
    rw [moveLoop_processed l tgt src fails ids.length ids.length _ ids 0
      (Nat.le_refl _)]
    simp
  · intro f1 f2 d proc
    exact ⟨rfl, rfl⟩

theorem move_progress_advancement_amended_witness :
    (moveBackground [(1, "Liked Companies List")] 2 3 [5, 5] noFail
      [(5, 2)]).processed = [5, 5].length :=
  (move_progress_advancement_amended [(1, "Liked Companies List")] 1 2 3 [5, 5]
    noFail [(5, 2)] rfl).2.1

/-- C3 counterexample: a self-move into the liked collection (source and
target both the liked collection) processes listed member 9 — its source
row is deleted, so it was successfully moved — yet afterwards record 9 has
no association with the liked collection, contradicting the claim for
moves whose target is the liked collection. -/
theorem self_move_into_liked_cex :
    resolveLiked [(1, "Liked Companies List")] = some 1 ∧
    (9, 1) ∈ ([(9, 1)] : DB) ∧
    9 ∈ [9] ∧
    (moveBackground [(1, "Liked Companies List")] 1 1 [9] noFail [(9, 1)]).db = [] ∧
    (9, 1) ∉ (moveBackground [(1, "Liked Companies List")] 1 1 [9] noFail
      [(9, 1)]).db := by
  decide

/-- C3 amended: after a move into the liked collection whose source is not
itself the liked collection, every listed record that was a source member
has a liked association; after a move whose source is the liked collection
and whose target is any non-liked collection, no listed record retains a
liked association (assuming the store's uniqueness invariant, at most one
copy of any row). -/
theorem move_liked_invariant_amended (cs : List (Nat × String)) (l src tgt : Nat)
    (ids : List Nat) (db : DB) (c : Nat) (h : resolveLiked cs = some l)
    (hc : c ∈ ids) :
    (tgt = l → src ≠ l → (c, src) ∈ db →
      (c, l) ∈ (moveBackground cs src tgt ids noFail db).db) ∧
    (src = l → tgt ≠ l → cnt db (c, l) ≤ 1 →
      (c, l) ∉ (moveBackground cs src tgt ids noFail db).db) := by
  unfold moveBackground
  rw [h]
  dsimp only
  constructor
  · intro htgt hsl hmem
    exact moveLoop_liked htgt hsl noFail ids.length ids.length ⟨db, 0, []⟩ ids 0 c
      (Nat.le_refl _) (Or.inl ⟨hc, hmem⟩)
  · intro hsrc htl hcnt
    have h0 := moveLoop_unliked hsrc htl noFail ids.length ids.length ⟨db, 0, []⟩
      ids 0 c (Nat.le_refl _) hcnt (Or.inl hc)
    rw [mem_iff_cnt_pos]
    omega

theorem move_liked_invariant_amended_witness :
    (5, 1) ∈ (moveBackground [(1, "Liked Companies List")] 2 1 [5] noFail
      [(5, 2)]).db ∧
    (6, 1) ∉ (moveBackground [(1, "Liked Companies List")] 1 3 [6] noFail
      [(6, 1)]).db :=
  ⟨(move_liked_invariant_amended [(1, "Liked Companies List")] 1 2 1 [5]
      [(5, 2)] 5 rfl (by decide)).1 rfl (by decide) (by decide),
    (move_liked_invariant_amended [(1, "Liked Companies List")] 1 1 3 [6]
      [(6, 1)] 6 rfl (by decide)).2 rfl (by decide) (by decide)⟩

/-- C10: a move whose source and target collections coincide inserts
nothing (every candidate is already present in the target, so no
multiplicity ever grows) and still runs the source-removal step, so every
listed record that is a member of the collection ends up with its
membership row deleted — a self-move deletes the listed members. -/
theorem self_move_removes_membership (cs : List (Nat × String)) (l src tgt : Nat)
    (ids : List Nat) (fails : Nat → Bool) (db : DB) (h : resolveLiked cs = some l)
    (hst : src = tgt) :
    (∀ q : Assoc, cnt (moveBackground cs src tgt ids fails db).db q ≤ cnt db q) ∧
    (∀ c ∈ ids, cnt db (c, src) ≤ 1 →
      cnt (moveBackground cs src tgt ids fails db).db (c, src) = 0) := by
  unfold moveBackground
  rw [h]
  dsimp only
  constructor
  · intro q
    exact moveLoop_cnt_le hst fails ids.length ids.length ⟨db, 0, []⟩ ids 0 q
  · intro c hc hcnt
    exact moveLoop_self_zero hst fails ids.length ids.length ⟨db, 0, []⟩ ids 0 c
      (Nat.le_refl _) hcnt (Or.inl hc)

theorem self_move_removes_membership_witness :
    cnt (moveBackground [(1, "Liked Companies List")] 2 2 [5] noFail
      [(5, 2), (6, 2)]).db (5, 2) = 0 ∧
    cnt (moveBackground [(1, "Liked Companies List")] 2 2 [5] noFail
      [(5, 2), (6, 2)]).db (6, 2) ≤ cnt [(5, 2), (6, 2)] (6, 2) :=
  ⟨(self_move_removes_membership [(1, "Liked Companies List")] 1 2 2 [5] noFail
      [(5, 2), (6, 2)] rfl rfl).2 5 (by decide) (by decide),
    (self_move_removes_membership [(1, "Liked Companies List")] 1 2 2 [5] noFail
      [(5, 2), (6, 2)] rfl rfl).1 (6, 2)⟩

/-- C8: a uniqueness violation in a page's batch insert is page-local and
recoverable: under every insert-failure oracle both engines still drive
every page, terminate at percent 100 with status `completed`, and never
re-raise towards the caller; and even when every page's batch insert fails
and is rolled back, the liked-invariant step still runs, so a move into
the liked collection still leaves every listed source member with its
liked association. -/
theorem integrity_violation_page_local (cs : List (Nat × String))
    (l src tgt total : Nat) (ids : List Nat) (db : DB) (c : Nat)
    (h : resolveLiked cs = some l) :
    (∀ fails : Nat → Bool,
      (copyBackground cs src tgt total fails db).progress = 100 ∧
      (copyBackground cs src tgt total fails db).raised = false ∧
      statusOf (copyBackground cs src tgt total fails db).progress = "completed" ∧
      (moveBackground cs src tgt ids fails db).progress = 100 ∧
      (moveBackground cs src tgt ids fails db).raised = false ∧
      statusOf (moveBackground cs src tgt ids fails db).progress = "completed") ∧
    (tgt = l → src ≠ l → c ∈ ids → (c, src) ∈ db →
      (c, l) ∈ (moveBackground cs src tgt ids (fun _ => true) db).db) := by
  constructor
  · intro fails
    unfold copyBackground moveBackground
    rw [h]
    exact ⟨rfl, rfl, statusOf_100, rfl, rfl, statusOf_100⟩
  · intro htgt hsl hc hmem
    unfold moveBackground
    rw [h]
    dsimp only
    exact moveLoop_liked htgt hsl (fun _ => true) ids.length ids.length
      ⟨db, 0, []⟩ ids 0 c (Nat.le_refl _) (Or.inl ⟨hc, hmem⟩)

theorem integrity_violation_page_local_witness :
    (copyBackground [(1, "Liked Companies List")] 2 3 1 (fun _ => true)
      [(5, 2)]).progress = 100 ∧
    (5, 1) ∈ (moveBackground [(1, "Liked Companies List")] 2 1 [5] (fun _ => true)
      [(5, 2)]).db :=
  ⟨((integrity_violation_page_local [(1, "Liked Companies List")] 1 2 3 1 [5]
      [(5, 2)] 5 rfl).1 (fun _ => true)).1,
    (integrity_violation_page_local [(1, "Liked Companies List")] 1 2 1 1 [5]
      [(5, 2)] 5 rfl).2 rfl (by decide) (by decide) (by decide)⟩

/-! ### Per-page lemmas for the copy engine -/

theorem copyPage_snd (l tgt src : Nat) (f : Bool) (db : DB) (proc : Nat) :
    (copyPage l tgt src f db proc).2 = (copySlice src db proc).length := rfl

theorem mem_copySlice_assocsIn {src : Nat} {db : DB} {proc : Nat} {a : Assoc}
    (h : a ∈ copySlice src db proc) : a ∈ assocsIn db src := by
  unfold copySlice at h
  exact (List.drop_sublist _ _).subset ((List.take_sublist _ _).subset h)

theorem copySlice_eta {src : Nat} {db : DB} {proc : Nat} {a : Assoc}
    (h : a ∈ copySlice src db proc) : a = (a.1, src) ∧ (a.1, src) ∈ db := by
  have h2 := mem_copySlice_assocsIn h
  have h4 := snd_eq_of_mem_assocsIn h2
  exact ⟨h4, by rw [← h4]; exact (mem_assocsIn.mp h2).1⟩

theorem foldl_fst_insert (l : Nat) (L : DB) (d : DB) :
    L.foldl (fun d a => insertLiked l d a.1) d =
      (L.map (fun a => a.1)).foldl (fun d c => insertLiked l d c) d := by
  induction L generalizing d with
  | nil => rfl
  | cons x rest ih =>
    simp only [List.foldl_cons, List.map_cons]
    exact ih _

theorem foldl_fst_remove (coll : Nat) (L : DB) (d : DB) :
    L.foldl (fun d a => removeFirst d (a.1, coll)) d =
      (L.map (fun a => a.1)).foldl (fun d c => removeFirst d (c, coll)) d := by
  induction L generalizing d with
  | nil => rfl
  | cons x rest ih =>
    simp only [List.foldl_cons, List.map_cons]
    exact ih _

theorem mem_copyInsert_mono {q : Assoc} {db : DB} (h : q ∈ db)
    (tgt src : Nat) (f : Bool) (proc : Nat) :
    q ∈ copyInsert tgt src f db proc := by
  unfold copyInsert
  split
  · exact h
  · exact List.mem_append_left _ h

theorem cnt_copyInsert_ne {tgt src : Nat} {q : Assoc} (h : q.2 ≠ tgt)
    (f : Bool) (db : DB) (proc : Nat) :
    cnt (copyInsert tgt src f db proc) q = cnt db q := by
  unfold copyInsert
  split
  · rfl
  · rw [cnt_append]
    have hz : cnt (((copySlice src db proc).filter
        (fun a => !hasAssoc db a.1 tgt)).map (fun a => (a.1, tgt))) q = 0 := by
      apply cnt_eq_zero_of_not_mem
      intro hmem
      rcases List.mem_map.mp hmem with ⟨x, _, hx⟩
      exact h (by rw [hx.symm])
    omega

/-- The insert stage of a copy page never changes the source projection:
when target and source coincide every slice id is already present so
nothing is appended, and otherwise the appended rows carry the target
collection id and fall outside the source filter. -/
theorem assocsIn_copyInsert (tgt src : Nat) (f : Bool) (db : DB) (proc : Nat) :
    assocsIn (copyInsert tgt src f db proc) src = assocsIn db src := by
  unfold copyInsert
  split
  · rfl
  · rw [assocsIn_append]
    by_cases hts : tgt = src
    · subst hts
      have hnil : (copySlice tgt db proc).filter
          (fun a => !hasAssoc db a.1 tgt) = [] := by
        rw [List.filter_eq_nil_iff]
        intro a ha
        have h2 := (copySlice_eta ha).2
        simp [hasAssoc, h2]
      rw [hnil]
      simp [assocsIn]
    · have hnil : assocsIn (((copySlice src db proc).filter
          (fun a => !hasAssoc db a.1 tgt)).map (fun a => (a.1, tgt))) src = [] := by
        unfold assocsIn
        rw [List.filter_eq_nil_iff]
        intro a ha
        rcases List.mem_map.mp ha with ⟨x, _, hx⟩
        rw [← hx]
        simp [hts]
      rw [hnil]
      simp

/-- With target liked, or source not liked, a copy page preserves the
source projection exactly: the claimed frame condition of copy mode. -/
theorem assocsIn_copyPage {l tgt src : Nat} (hH : tgt = l ∨ src ≠ l)
    (f : Bool) (db : DB) (proc : Nat) :
    assocsIn (copyPage l tgt src f db proc).1 src = assocsIn db src := by
  unfold copyPage
  dsimp only
  by_cases htl : tgt = l
  · rw [if_pos htl, foldl_fst_insert]
    by_cases hls : l = src
    · have hnoop : ((copySlice src db proc).map (fun a => a.1)).foldl
          (fun d c => insertLiked l d c) (copyInsert tgt src f db proc) =
            copyInsert tgt src f db proc := by
        apply foldInsert_noop
        intro c hcm
        rcases List.mem_map.mp hcm with ⟨a, ha, hac⟩
        have h2 := (copySlice_eta ha).2
        rw [← hac, hls]
        exact mem_copyInsert_mono h2 tgt src f proc
      rw [hnoop, assocsIn_copyInsert]
    · rw [assocsIn_foldInsert_ne hls, assocsIn_copyInsert]
  · rw [if_neg htl, foldl_fst_remove]
    have hsl : src ≠ l := hH.resolve_left htl
    rw [assocsIn_foldRemove_ne (Ne.symm hsl), assocsIn_copyInsert]

/-- Copy pages never remove a target association. -/
theorem copyPage_tgt_mono {l tgt src : Nat} {c : Nat} {db : DB}
    (h : (c, tgt) ∈ db) (f : Bool) (proc : Nat) :
    (c, tgt) ∈ (copyPage l tgt src f db proc).1 := by
  unfold copyPage
  dsimp only
  by_cases htl : tgt = l
  · rw [if_pos htl, foldl_fst_insert]
    exact foldInsert_mono (mem_copyInsert_mono h tgt src f proc) l _
  · rw [if_neg htl, foldl_fst_remove]
    exact foldRemove_mem_snd (mem_copyInsert_mono h tgt src f proc)
      (by simpa using htl) _

/-- A copy page with a successful insert leaves every slice id associated
with the target (it was either already there or freshly inserted). -/
theorem copyPage_covers {l tgt src : Nat} {db : DB} {proc : Nat} {a : Assoc}
    (ha : a ∈ copySlice src db proc) :
    (a.1, tgt) ∈ (copyPage l tgt src false db proc).1 := by
  have hins : (a.1, tgt) ∈ copyInsert tgt src false db proc := by
    by_cases hmem : hasAssoc db a.1 tgt = true
    · exact mem_copyInsert_mono (hasAssoc_iff.mp hmem) tgt src false proc
    · have hrfl : copyInsert tgt src false db proc =
          db ++ ((copySlice src db proc).filter
            (fun a => !hasAssoc db a.1 tgt)).map (fun a => (a.1, tgt)) := rfl
      rw [hrfl]
      apply List.mem_append_right
      apply List.mem_map.mpr
      exact ⟨a, List.mem_filter.mpr ⟨ha, by simp [hmem]⟩, rfl⟩
  unfold copyPage
  dsimp only
  by_cases htl : tgt = l
  · rw [if_pos htl, foldl_fst_insert]
    exact foldInsert_mono hins l _
  · rw [if_neg htl, foldl_fst_remove]
    exact foldRemove_mem_snd hins (by simpa using htl) _

/-- Copy pages whose target is not the liked collection never increase the
multiplicity of a liked association. -/
theorem copyPage_cnt_liked_le {l tgt src : Nat} (htl : tgt ≠ l)
    (f : Bool) (db : DB) (proc : Nat) (c : Nat) :
    cnt (copyPage l tgt src f db proc).1 (c, l) ≤ cnt db (c, l) := by
  unfold copyPage
  dsimp only
  rw [if_neg htl, foldl_fst_remove]
  refine Nat.le_trans (foldRemove_cnt_le _ _ _ _) ?_
  exact Nat.le_of_eq (cnt_copyInsert_ne (Ne.symm htl) f db proc)

/-- A copy page whose target is not the liked collection clears the
(unique) liked association of every id in its slice. -/
theorem copyPage_cnt_liked_zero {l tgt src : Nat} (htl : tgt ≠ l)
    (f : Bool) {db : DB} {proc : Nat} {c : Nat}
    (hc : c ∈ (copySlice src db proc).map (fun a => a.1))
    (hcnt : cnt db (c, l) ≤ 1) :
    cnt (copyPage l tgt src f db proc).1 (c, l) = 0 := by
  unfold copyPage
  dsimp only
  rw [if_neg htl, foldl_fst_remove]
  apply foldRemove_cnt_zero hc
  rw [cnt_copyInsert_ne (Ne.symm htl)]
  exact hcnt

theorem nodup_copySlice {src : Nat} {db : DB} (h : db.Nodup) (proc : Nat) :
    (copySlice src db proc).Nodup :=
  ((h.filter _).sublist (List.drop_sublist _ _)).sublist (List.take_sublist _ _)

theorem nodup_copyInsert {tgt src : Nat} {db : DB} (h : db.Nodup)
    (f : Bool) (proc : Nat) : (copyInsert tgt src f db proc).Nodup := by
  unfold copyInsert
  split
  · exact h
  · refine List.Nodup.append h ?_ ?_
    · apply List.Nodup.map_on
      · intro x hx y hy hxy
        have hex := (copySlice_eta (List.mem_filter.mp hx).1).1
        have hey := (copySlice_eta (List.mem_filter.mp hy).1).1
        have hfst : x.1 = y.1 := by
          injection hxy with h1 h2
        rw [hex, hey, hfst]
      · exact (nodup_copySlice h proc).filter _
    · intro x hx hx2
      rcases List.mem_map.mp hx2 with ⟨y, hy, hyx⟩
      have hnot := (List.mem_filter.mp hy).2
      rw [← hyx] at hx
      simp [hasAssoc_iff.mpr hx] at hnot

theorem nodup_copyPage {l tgt src : Nat} {db : DB} (h : db.Nodup)
    (f : Bool) (proc : Nat) : (copyPage l tgt src f db proc).1.Nodup := by
  unfold copyPage
  dsimp only
  by_cases htl : tgt = l
  · rw [if_pos htl, foldl_fst_insert]
    exact nodup_foldInsert (nodup_copyInsert h f proc) l _
  · rw [if_neg htl, foldl_fst_remove]
    exact nodup_foldRemove (nodup_copyInsert h f proc) l _

/-- A copy page acting on a store where every slice id is already in the
target, and (for a non-liked target) no slice id retains a liked row, is a
complete no-op regardless of the insert oracle. -/
theorem copyPage_noop {l tgt src : Nat} {db : DB} {proc : Nat}
    (h1 : ∀ a ∈ copySlice src db proc, hasAssoc db a.1 tgt = true)
    (h2 : tgt = l ∨ ∀ a ∈ copySlice src db proc, (a.1, l) ∉ db)
    (f : Bool) :
    (copyPage l tgt src f db proc).1 = db := by
  have hins : copyInsert tgt src f db proc = db := by
    unfold copyInsert
    split
    · rfl
    · have hnil : (copySlice src db proc).filter
          (fun a => !hasAssoc db a.1 tgt) = [] := by
        rw [List.filter_eq_nil_iff]
        intro a ha
        simp [h1 a ha]
      rw [hnil]
      simp
  unfold copyPage
  dsimp only
  by_cases htl : tgt = l
  · rw [if_pos htl, foldl_fst_insert, hins]
    apply foldInsert_noop
    intro c hcm
    rcases List.mem_map.mp hcm with ⟨a, ha, hac⟩
    rw [← hac, ← htl]
    exact hasAssoc_iff.mp (h1 a ha)
  · rw [if_neg htl, foldl_fst_remove, hins]
    apply foldRemove_noop
    intro c hcm
    rcases List.mem_map.mp hcm with ⟨a, ha, hac⟩
    rcases h2 with h2l | h2r
    · exact absurd h2l htl
    · rw [← hac]
      exact h2r a ha

/-! ### Loop-level lemmas for the copy engine -/

theorem take_length_take {α : Type} (l : List α) (m : Nat) :
    l.take (l.take m).length = l.take m := by
  rw [List.length_take]
  by_cases h : m ≤ l.length
  · rw [Nat.min_eq_left h]
  · push_neg at h
    rw [Nat.min_eq_right (Nat.le_of_lt h), List.take_length,
      List.take_of_length_le (Nat.le_of_lt h)]

theorem copyLoop_proj {l tgt src : Nat} (hH : tgt = l ∨ src ≠ l)
    (total : Nat) (fails : Nat → Bool) :
    ∀ (fuel : Nat) (st : EngState) (page : Nat),
      assocsIn (copyLoop l tgt src total fails fuel st page).db src =
        assocsIn st.db src := by
  intro fuel
  induction fuel with
  | zero => intro st page; rfl
  | succ fuel ih =>
    intro st page
    rw [copyLoop]
    by_cases hlt : st.processed < total
    · rw [if_pos hlt]
      by_cases hz : (copyPage l tgt src (fails page) st.db st.processed).2 = 0
      · rw [if_pos hz]
      · rw [if_neg hz, ih]
        dsimp only
        exact assocsIn_copyPage hH _ _ _
    · rw [if_neg hlt]

theorem copyLoop_nodup (l tgt src total : Nat) (fails : Nat → Bool) :
    ∀ (fuel : Nat) (st : EngState) (page : Nat), st.db.Nodup →
      (copyLoop l tgt src total fails fuel st page).db.Nodup := by
  intro fuel
  induction fuel with
  | zero => intro st page h; exact h
  | succ fuel ih =>
    intro st page h
    rw [copyLoop]
    by_cases hlt : st.processed < total
    · rw [if_pos hlt]
      by_cases hz : (copyPage l tgt src (fails page) st.db st.processed).2 = 0
      · rw [if_pos hz]; exact h
      · rw [if_neg hz]
        exact ih _ _ (nodup_copyPage h _ _)
    · rw [if_neg hlt]; exact h

/-- Main coverage induction for copy runs with successful inserts: the
source projection is fixed, every projection element left of the processed
cursor already has its target association, and the loop ends only once the
cursor has passed the snapshot total or the whole projection. -/
theorem copyLoop_cover {l tgt src : Nat} (hH : tgt = l ∨ src ≠ l)
    (total : Nat) {P0 : DB} :
    ∀ (fuel : Nat) (st : EngState) (page : Nat),
      assocsIn st.db src = P0 →
      (∀ a ∈ P0.take st.processed, (a.1, tgt) ∈ st.db) →
      total ≤ st.processed + fuel →
      assocsIn (copyLoop l tgt src total noFail fuel st page).db src = P0 ∧
      (∀ a ∈ P0.take (copyLoop l tgt src total noFail fuel st page).processed,
        (a.1, tgt) ∈ (copyLoop l tgt src total noFail fuel st page).db) ∧
      (total ≤ (copyLoop l tgt src total noFail fuel st page).processed ∨
        P0.length ≤ (copyLoop l tgt src total noFail fuel st page).processed) := by
  intro fuel
  induction fuel with
  | zero =>
    intro st page hP hCov hle
    exact ⟨hP, hCov, Or.inl (by rw [copyLoop]; omega)⟩
  | succ fuel ih =>
    intro st page hP hCov hle
    rw [copyLoop]
    by_cases hlt : st.processed < total
    · rw [if_pos hlt]
      by_cases hz : (copyPage l tgt src (noFail page) st.db st.processed).2 = 0
      · rw [if_pos hz]
        refine ⟨hP, hCov, Or.inr ?_⟩
        rw [copyPage_snd] at hz
        unfold copySlice at hz
        rw [hP, List.length_take, List.length_drop] at hz
        have hb : batchSize = 200 := rfl
        omega
      · rw [if_neg hz]
        have hslice : copySlice src st.db st.processed =
            (P0.drop st.processed).take batchSize := by
          unfold copySlice
          rw [hP]
        apply ih
        · dsimp only
          rw [assocsIn_copyPage hH, hP]
        · dsimp only
          rw [copyPage_snd, hslice]
          intro a ha
          rw [List.take_add] at ha
          rcases List.mem_append.mp ha with hold | hnew
          · exact copyPage_tgt_mono (hCov a hold) _ _
          · rw [take_length_take] at hnew
            rw [← hslice] at hnew
            exact copyPage_covers hnew
        · dsimp only
          rw [copyPage_snd] at hz ⊢
          omega
    · rw [if_neg hlt]
      exact ⟨hP, hCov, Or.inl (by omega)⟩

/-- Liked-stripping induction for copy runs into a non-liked target from a
non-liked source: multiplicities of liked rows stay at most one, and every
projection element left of the cursor has had its liked row cleared. -/
theorem copyLoop_clear {l tgt src : Nat} (htl : tgt ≠ l) (hsl : src ≠ l)
    (total : Nat) {P0 : DB} :
    ∀ (fuel : Nat) (st : EngState) (page : Nat),
      assocsIn st.db src = P0 →
      (∀ c : Nat, cnt st.db (c, l) ≤ 1) →
      (∀ a ∈ P0.take st.processed, cnt st.db (a.1, l) = 0) →
      total ≤ st.processed + fuel →
      (∀ c : Nat, cnt (copyLoop l tgt src total noFail fuel st page).db (c, l) ≤ 1) ∧
      (∀ a ∈ P0.take (copyLoop l tgt src total noFail fuel st page).processed,
        cnt (copyLoop l tgt src total noFail fuel st page).db (a.1, l) = 0) := by
  intro fuel
  induction fuel with
  | zero =>
    intro st page hP hB hClr hle
    exact ⟨hB, hClr⟩
  | succ fuel ih =>
    intro st page hP hB hClr hle
    rw [copyLoop]
    by_cases hlt : st.processed < total
    · rw [if_pos hlt]
      by_cases hz : (copyPage l tgt src (noFail page) st.db st.processed).2 = 0
      · rw [if_pos hz]
        exact ⟨hB, hClr⟩
      · rw [if_neg hz]
        have hslice : copySlice src st.db st.processed =
            (P0.drop st.processed).take batchSize := by
          unfold copySlice
          rw [hP]
        apply ih
        · dsimp only
          rw [assocsIn_copyPage (Or.inr hsl), hP]
        · dsimp only
          intro c
          exact Nat.le_trans (copyPage_cnt_liked_le htl _ _ _ _) (hB c)
        · dsimp only
          rw [copyPage_snd, hslice]
          intro a ha
          rw [List.take_add] at ha
          rcases List.mem_append.mp ha with hold | hnew
          · have h1 := @copyPage_cnt_liked_le l tgt src htl (noFail page) st.db
              st.processed a.1
            have h2 := hClr a hold
            omega
          · rw [take_length_take] at hnew
            rw [← hslice] at hnew
            exact copyPage_cnt_liked_zero htl _
              (List.mem_map.mpr ⟨a, hnew, rfl⟩) (hB a.1)
        · dsimp only
          rw [copyPage_snd] at hz ⊢
          omega
    · rw [if_neg hlt]
      exact ⟨hB, hClr⟩

/-- When every page is a no-op on a fixed store, the loop leaves the store
unchanged. -/
theorem copyLoop_noop {l tgt src : Nat} {D : DB}
    (hnoop : ∀ (f : Bool) (proc : Nat), (copyPage l tgt src f D proc).1 = D)
    (total : Nat) (fails : Nat → Bool) :
    ∀ (fuel : Nat) (st : EngState) (page : Nat), st.db = D →
      (copyLoop l tgt src total fails fuel st page).db = D := by
  intro fuel
  induction fuel with
  | zero => intro st page h; exact h
  | succ fuel ih =>
    intro st page h
    rw [copyLoop]
    by_cases hlt : st.processed < total
    · rw [if_pos hlt]
      by_cases hz : (copyPage l tgt src (fails page) st.db st.processed).2 = 0
      · rw [if_pos hz]; exact h
      · rw [if_neg hz]
        apply ih
        dsimp only
        rw [h, hnoop]
    · rw [if_neg hlt]; exact h

/-! ### Claim theorems: copy-engine behaviour -/

/-- C1 counterexample: copying out of the liked collection into another
collection deletes the copied records from the source: with the liked
collection (id 1) as source holding record 5, after the copy to
collection 2 the association (5, 1) is gone, because the per-page
liked-invariant branch for a non-liked target deletes liked rows and the
source here is the liked collection. -/
theorem copy_from_liked_removes_source_cex :
    resolveLiked [(1, "Liked Companies List")] = some 1 ∧
    (5, 1) ∈ ([(5, 1)] : DB) ∧
    (launchCopy [(1, "Liked Companies List")] 1 2 noFail [(5, 1)]).db = [(5, 2)] ∧
    (5, 1) ∉ (launchCopy [(1, "Liked Companies List")] 1 2 noFail [(5, 1)]).db := by
  decide

/-- C1 amended: in copy mode the engine removes nothing from the source
collection provided the target is the liked collection or the source is
not the liked collection; under that proviso the source projection of the
store is exactly preserved, for every launch total and every insert
oracle.  (When the source is the liked collection and the target is not,
the per-page liked-invariant step deletes each candidate's liked — that
is, source — association, as the counterexample shows.) -/
theorem copy_preserves_source_amended (cs : List (Nat × String))
    (l src tgt total : Nat) (fails : Nat → Bool) (db : DB)
    (h : resolveLiked cs = some l) (hH : tgt = l ∨ src ≠ l) :
    assocsIn (copyBackground cs src tgt total fails db).db src =
      assocsIn db src ∧
    ∀ c : Nat, (c, src) ∈ db →
      (c, src) ∈ (copyBackground cs src tgt total fails db).db := by
  unfold copyBackground
  rw [h]
  dsimp only
  have hproj := copyLoop_proj hH total fails total ⟨db, 0, []⟩ 0
  refine ⟨hproj, ?_⟩
  intro c hc
  have h1 : (c, src) ∈ assocsIn
      (copyLoop l tgt src total fails total ⟨db, 0, []⟩ 0).db src := by
    rw [hproj]
    exact mem_assocsIn.mpr ⟨hc, rfl⟩
  exact (mem_assocsIn.mp h1).1

theorem copy_preserves_source_amended_witness :
    assocsIn (copyBackground [(1, "Liked Companies List")] 2 3 1 noFail
      [(5, 2)]).db 2 = assocsIn [(5, 2)] 2 ∧
    (5, 2) ∈ (copyBackground [(1, "Liked Companies List")] 2 3 1 noFail
      [(5, 2)]).db :=
  ⟨(copy_preserves_source_amended [(1, "Liked Companies List")] 1 2 3 1 noFail
      [(5, 2)] rfl (Or.inr (by decide))).1,
    (copy_preserves_source_amended [(1, "Liked Companies List")] 1 2 3 1 noFail
      [(5, 2)] rfl (Or.inr (by decide))).2 5 (by decide)⟩

/-- C4 amended: provided the target is the liked collection or the source
is not the liked collection, and the store satisfies its uniqueness
invariant, re-launching the same copy against the state left by a first
run leaves the store completely unchanged — in particular the second run
inserts no association into the target — and neither run ever produces a
duplicate (record, collection) pair or raises.  (When the source is the
liked collection and the target is not, the first run's liked-stripping
shrinks the source mid-pagination, skips members, and a second run then
does insert new target associations, as the counterexample shows.) -/
theorem copy_idempotent_amended (cs : List (Nat × String)) (l src tgt : Nat)
    (db : DB) (h : resolveLiked cs = some l) (hH : tgt = l ∨ src ≠ l)
    (hnd : db.Nodup) :
    (launchCopy cs src tgt noFail (launchCopy cs src tgt noFail db).db).db =
      (launchCopy cs src tgt noFail db).db ∧
    (launchCopy cs src tgt noFail db).db.Nodup ∧
    (launchCopy cs src tgt noFail (launchCopy cs src tgt noFail db).db).db.Nodup ∧
    (launchCopy cs src tgt noFail db).raised = false ∧
    (launchCopy cs src tgt noFail
      (launchCopy cs src tgt noFail db).db).raised = false := by
  have hbg : ∀ d : DB, launchCopy cs src tgt noFail d = MigResult.mk
      (copyLoop l tgt src (assocsIn d src).length noFail
        (assocsIn d src).length ⟨d, 0, []⟩ 0).db
      100
      (copyLoop l tgt src (assocsIn d src).length noFail
        (assocsIn d src).length ⟨d, 0, []⟩ 0).trace
      (copyLoop l tgt src (assocsIn d src).length noFail
        (assocsIn d src).length ⟨d, 0, []⟩ 0).processed
      false := by
    intro d
    unfold launchCopy copyBackground
    rw [h]
  obtain ⟨hP1, hCov1, hEnd1⟩ := @copyLoop_cover l tgt src hH
    (assocsIn db src).length (assocsIn db src) (assocsIn db src).length
    ⟨db, 0, []⟩ 0 rfl (by simp) (by dsimp only; omega)
  have hproc1 : (assocsIn db src).length ≤
      (copyLoop l tgt src (assocsIn db src).length noFail
        (assocsIn db src).length ⟨db, 0, []⟩ 0).processed :=
    hEnd1.elim id id
  have hCovAll : ∀ a ∈ assocsIn db src,
      (a.1, tgt) ∈ (copyLoop l tgt src (assocsIn db src).length noFail
        (assocsIn db src).length ⟨db, 0, []⟩ 0).db := by
    intro a ha
    apply hCov1
    rw [List.take_of_length_le hproc1]
    exact ha
  have hnd1 : (copyLoop l tgt src (assocsIn db src).length noFail
      (assocsIn db src).length ⟨db, 0, []⟩ 0).db.Nodup :=
    copyLoop_nodup l tgt src (assocsIn db src).length noFail
      (assocsIn db src).length ⟨db, 0, []⟩ 0 hnd
  have hClearAll : tgt ≠ l → ∀ a ∈ assocsIn db src,
      cnt (copyLoop l tgt src (assocsIn db src).length noFail
        (assocsIn db src).length ⟨db, 0, []⟩ 0).db (a.1, l) = 0 := by
    intro htl a ha
    obtain ⟨hB1, hClr1⟩ := @copyLoop_clear l tgt src htl
      (hH.resolve_left htl) (assocsIn db src).length (assocsIn db src)
      (assocsIn db src).length ⟨db, 0, []⟩ 0 rfl
      (fun c => cnt_le_one_of_nodup hnd (c, l))
      (by simp) (by dsimp only; omega)
    apply hClr1
    rw [List.take_of_length_le hproc1]
    exact ha
  have hnoop : ∀ (f : Bool) (proc : Nat),
      (copyPage l tgt src f (copyLoop l tgt src (assocsIn db src).length noFail
        (assocsIn db src).length ⟨db, 0, []⟩ 0).db proc).1 =
      (copyLoop l tgt src (assocsIn db src).length noFail
        (assocsIn db src).length ⟨db, 0, []⟩ 0).db := by
    intro f proc
    apply copyPage_noop
    · intro a ha
      have haP := mem_copySlice_assocsIn ha
      rw [hP1] at haP
      exact hasAssoc_iff.mpr (hCovAll a haP)
    · by_cases htl : tgt = l
      · exact Or.inl htl
      · right
        intro a ha
        have haP := mem_copySlice_assocsIn ha
        rw [hP1] at haP
        have hz := hClearAll htl a haP
        rw [mem_iff_cnt_pos]
        omega
  have hrun2 : (copyLoop l tgt src
      (assocsIn (copyLoop l tgt src (assocsIn db src).length noFail
        (assocsIn db src).length ⟨db, 0, []⟩ 0).db src).length noFail
      (assocsIn (copyLoop l tgt src (assocsIn db src).length noFail
        (assocsIn db src).length ⟨db, 0, []⟩ 0).db src).length
      ⟨(copyLoop l tgt src (assocsIn db src).length noFail
        (assocsIn db src).length ⟨db, 0, []⟩ 0).db, 0, []⟩ 0).db =
      (copyLoop l tgt src (assocsIn db src).length noFail
        (assocsIn db src).length ⟨db, 0, []⟩ 0).db :=
    copyLoop_noop hnoop _ noFail _ ⟨_, 0, []⟩ 0 rfl
  rw [hbg db]
  dsimp only
  rw [hbg]
  dsimp only
  refine ⟨hrun2, hnd1, ?_, rfl, rfl⟩
  rw [hrun2]
  exact hnd1

theorem copy_idempotent_amended_witness :
    (launchCopy [(1, "Liked Companies List")] 2 3 noFail
      (launchCopy [(1, "Liked Companies List")] 2 3 noFail [(5, 2)]).db).db =
      (launchCopy [(1, "Liked Companies List")] 2 3 noFail [(5, 2)]).db ∧
    (launchCopy [(1, "Liked Companies List")] 2 3 noFail [(5, 2)]).db.Nodup :=
  ⟨(copy_idempotent_amended [(1, "Liked Companies List")] 1 2 3 [(5, 2)] rfl
      (Or.inr (by decide)) (by decide)).1,
    (copy_idempotent_amended [(1, "Liked Companies List")] 1 2 3 [(5, 2)] rfl
      (Or.inr (by decide)) (by decide)).2.1⟩

set_option maxRecDepth 100000 in
/-- C4 counterexample: with the liked collection (id 1) as source holding
201 records and a plain target (id 2), the first copy's liked-stripping
deletes the first page's 200 source rows, so offset pagination skips
record 200 entirely and the run completes without inserting (200, 2); a
second launch of the same copy against the resulting state then inserts
the new association (200, 2) into the target — so the second run is not
insertion-free. -/
theorem copy_idempotency_cex :
    cnt (launchCopy [(1, "Liked Companies List")] 1 2 noFail
      ((List.range 201).map (fun i => (i, 1)))).db (200, 2) = 0 ∧
    cnt (launchCopy [(1, "Liked Companies List")] 1 2 noFail
      (launchCopy [(1, "Liked Companies List")] 1 2 noFail
        ((List.range 201).map (fun i => (i, 1)))).db).db (200, 2) = 1 := by
  decide
